import Mathlib

/-!
Verification of the narva-queue capture/detection/ingestion service.

Shallow embedding of the Python sources:
- `narva_queue/camera/balticlivecam.py` (token redaction, stream discovery and
  frame-capture retry loops),
- `narva_queue/detection/yolo.py` (ROI geometry and person counting),
- `narva_queue/service/ingest.py` (ingestion orchestration),
- `narva_queue/service/retention.py` (image retention pruning),
- `narva_queue/web/app.py` (time-series downsampling).

Modelling conventions: Python `int` becomes `ℤ` (or `ℕ` for lengths), Python
`float` arithmetic is embedded as exact rational arithmetic over `ℚ` with
`round` (banker's rounding, ties to even) as `pyRound` and `int(...)`
truncation as `pyTrunc`; `None` becomes `Option.none`; strings are `List Char`;
I/O effects (network requests, subprocess runs, file probes, the black-box
YOLO model, PIL rendering) are supplied as explicit environment/oracle values.
-/

namespace NarvaQueue

/-! ## Rounding helpers (Python numeric semantics) -/

/-- Python `round` on a real value: nearest integer, ties to even. -/
def pyRound (q : ℚ) : ℤ :=
  if Int.fract q < 1 / 2 then ⌊q⌋
  else if 1 / 2 < Int.fract q then ⌊q⌋ + 1
  else if ⌊q⌋ % 2 = 0 then ⌊q⌋ else ⌊q⌋ + 1

/-- Python `int(...)` on a real value: truncation toward zero. -/
def pyTrunc (q : ℚ) : ℤ :=
  if q < 0 then ⌈q⌉ else ⌊q⌋

/-! ## `camera/balticlivecam.py`: token redaction

`TOKEN_PATTERN = re.compile(r"token=[^&\s'\x22<>]+")` and
`_redact_tokens(value) = TOKEN_PATTERN.sub("token=<redacted>", value)`.
`re.sub` scans left to right, replacing each leftmost non-overlapping match;
the pattern is the literal `token=` followed by a maximal nonempty run of
characters outside `&`, ASCII whitespace, `'`, `"`, `<`, `>`. -/

/-- Membership in the character class `[^&\s'\x22<>]` of `TOKEN_PATTERN`
(`\s` taken as the ASCII whitespace characters). -/
def isValueChar (c : Char) : Bool :=
  !(c = '&' || c = ' ' || c = '\t' || c = '\n' || c = '\r' ||
    c = '\x0b' || c = '\x0c' || c = '\'' || c = '"' || c = '<' || c = '>')

/-- The replacement text `token=<redacted>` as a character list. -/
def REDACTED_REPLACEMENT : List Char :=
  ['t', 'o', 'k', 'e', 'n', '=', '<', 'r', 'e', 'd', 'a', 'c', 't', 'e', 'd', '>']

/-- The literal `token=` that anchors `TOKEN_PATTERN`. -/
def TOKEN_EQ : List Char := ['t', 'o', 'k', 'e', 'n', '=']

/-- `_redact_tokens`: left-to-right scan; at each position, if the literal
`token=` followed by at least one value character matches, the whole match
(`token=` plus the maximal value-character run) is replaced by
`token=<redacted>` and scanning resumes after it, else one character is
emitted unchanged. -/
def redactTokens : List Char → List Char
  | 't' :: 'o' :: 'k' :: 'e' :: 'n' :: '=' :: r =>
    if (r.takeWhile isValueChar).isEmpty then
      't' :: redactTokens ('o' :: 'k' :: 'e' :: 'n' :: '=' :: r)
    else
      REDACTED_REPLACEMENT ++ redactTokens (r.dropWhile isValueChar)
  | c :: rest => c :: redactTokens rest
  | [] => []
termination_by l => l.length
decreasing_by
  · simp
  · have h := (List.dropWhile_sublist (l := r) (p := isValueChar)).length_le
    simp
    omega
  · simp

/-- Whether a string begins with a match of `TOKEN_PATTERN`
(`token=` immediately followed by a value character). -/
def startsBadToken : List Char → Bool
  | 't' :: 'o' :: 'k' :: 'e' :: 'n' :: '=' :: c :: _ => isValueChar c
  | _ => false

/-- Whether any position of the string matches `TOKEN_PATTERN`, i.e. the
string still holds a redactable `token=<value>` substring. -/
def hasUnredactedToken : List Char → Bool
  | [] => false
  | c :: rest => startsBadToken (c :: rest) || hasUnredactedToken rest

/-! ## `detection/yolo.py`: ROI geometry -/

def ROI_BASE_WIDTH : ℤ := 1920

def ROI_BASE_HEIGHT : ℤ := 1080

def ROI_POLYGON_BASE : List (ℤ × ℤ) :=
  [(303, 465), (354, 465), (890, 527), (1279, 588), (1510, 641), (1683, 702),
   (1820, 783), (1888, 841), (1739, 900), (1195, 817), (876, 705), (293, 500)]

/-- `scale_polygon`: each vertex scaled by `frame_width / ROI_BASE_WIDTH` and
`frame_height / ROI_BASE_HEIGHT` (float division embedded as `ℚ`), rounded
with Python `round`. -/
def scale_polygon (polygon : List (ℤ × ℤ)) (frame_width frame_height : ℤ) :
    List (ℤ × ℤ) :=
  let x_scale : ℚ := (frame_width : ℚ) / (ROI_BASE_WIDTH : ℚ)
  let y_scale : ℚ := (frame_height : ℚ) / (ROI_BASE_HEIGHT : ℚ)
  polygon.map fun p => (pyRound ((p.1 : ℚ) * x_scale), pyRound ((p.2 : ℚ) * y_scale))

/-- One edge test of the ray-casting loop in `point_in_polygon`: the crossing
parity test for the edge from vertex `pj` to vertex `pi`. The horizontal-edge
divisor substitution `(yj - yi) or 1e-9` is embedded with the exact rational
`1 / 10^9`. -/
def pipEdgeTest (x y : ℚ) (pi pj : ℤ × ℤ) : Bool :=
  let xi : ℚ := (pi.1 : ℚ)
  let yi : ℚ := (pi.2 : ℚ)
  let xj : ℚ := (pj.1 : ℚ)
  let yj : ℚ := (pj.2 : ℚ)
  (decide (yi > y) != decide (yj > y)) &&
    decide (x < (xj - xi) * (y - yi) / (if yj - yi = 0 then 1 / 1000000000 else yj - yi) + xi)

/-- `point_in_polygon`: ray casting; polygons with fewer than 3 vertices are
never hit. The loop state is `(inside, j)` with `j` starting at the last
index. -/
def point_in_polygon (x y : ℚ) (polygon : List (ℤ × ℤ)) : Bool :=
  let points_count := polygon.length
  if points_count < 3 then false
  else
    ((List.range points_count).foldl
      (fun (st : Bool × ℕ) i =>
        let pi := polygon.getD i (0, 0)
        let pj := polygon.getD st.2 (0, 0)
        (if pipEdgeTest x y pi pj then !st.1 else st.1, i))
      (false, points_count - 1)).1

/-- `bottom_center`: the bottom-center anchor point of a bounding box. -/
def bottom_center (box : ℤ × ℤ × ℤ × ℤ) : ℚ × ℚ :=
  (((box.1 : ℚ) + (box.2.2.1 : ℚ)) / 2, (box.2.2.2 : ℚ))

/-- `get_scaled_roi_polygon`: `None` when either dimension is missing or
falsy (`0`), else the base polygon scaled to the frame size. -/
def get_scaled_roi_polygon (image_width image_height : Option ℤ) :
    Option (List (ℤ × ℤ)) :=
  match image_width, image_height with
  | some w, some h =>
    if w = 0 ∨ h = 0 then none else some (scale_polygon ROI_POLYGON_BASE w h)
  | _, _ => none

/-! ## `detection/yolo.py`: `count_people_in_image`

The YOLO model is the spec's black-box collaborator; its `predict` output is
supplied as a list of results. A result carries an optional reported frame
shape `orig_shape = (height, width)` (`none` models a missing or falsy
attribute) and optional `boxes` with optional `cls` / `xyxy` tensors
(float values embedded as `ℚ`; each `xyxy` row is its first four entries). -/

structure YoloBoxes where
  cls : Option (List ℚ)
  xyxy : Option (List (ℚ × ℚ × ℚ × ℚ))

structure YoloResult where
  orig_shape : Option (ℤ × ℤ)
  boxes : Option YoloBoxes

/-- The `(cls, xyxy)` detection pairs of the first result, as the code reads
them (`zip(cls_values, xyxy_values)`); empty when there is no result or the
`boxes`/`cls`/`xyxy` attributes are missing. -/
def model_detections (results : List YoloResult) : List (ℚ × (ℚ × ℚ × ℚ × ℚ)) :=
  match results with
  | [] => []
  | result :: _ =>
    match result.boxes with
    | none => []
    | some b =>
      match b.cls, b.xyxy with
      | some cls_values, some xyxy_values => cls_values.zip xyxy_values
      | _, _ => []

/-- `(int(round(coord)) for coord in box[:4])`. -/
def roundBox (b : ℚ × ℚ × ℚ × ℚ) : ℤ × ℤ × ℤ × ℤ :=
  (pyRound b.1, pyRound b.2.1, pyRound b.2.2.1, pyRound b.2.2.2)

/-- `count_people_in_image`: returns
`(count, image_width, image_height, person_boxes_filtered)`. The caller-given
dimensions only feed the inference hints; after prediction both are reset and
re-resolved from the first result's `orig_shape`. Person boxes are the
class-0 detections, rounded; when a scaled ROI exists, only boxes whose
bottom-center lies inside it are kept. -/
def count_people_in_image (results : List YoloResult)
    (image_width image_height : Option ℤ) :
    ℕ × Option ℤ × Option ℤ × List (ℤ × ℤ × ℤ × ℤ) :=
  match results with
  | [] => (0, none, none, [])
  | result :: _ =>
    let image_width : Option ℤ := result.orig_shape.map Prod.snd
    let image_height : Option ℤ := result.orig_shape.map Prod.fst
    match result.boxes with
    | none => (0, image_width, image_height, [])
    | some b =>
      match b.cls, b.xyxy with
      | some cls_values, some xyxy_values =>
        let person_boxes_all : List (ℤ × ℤ × ℤ × ℤ) :=
          (cls_values.zip xyxy_values).filterMap fun d =>
            if pyTrunc d.1 ≠ 0 then none else some (roundBox d.2)
        let roi_polygon := get_scaled_roi_polygon image_width image_height
        let person_boxes_filtered :=
          match roi_polygon with
          | none => person_boxes_all
          | some poly =>
            person_boxes_all.filter fun box =>
              point_in_polygon (bottom_center box).1 (bottom_center box).2 poly
        (person_boxes_filtered.length, image_width, image_height, person_boxes_filtered)
      | _, _ => (0, image_width, image_height, [])

/-! ## `camera/balticlivecam.py`: discovery and capture retry loops

Network and subprocess effects are supplied by an oracle environment:
`discoveryOutcomes` lists the successive outcomes of one
`_request_auth_token_payload` + `_extract_stream_url` round (either the
extracted tokenized URL or the raised error's message), and `ffmpegOutcomes`
the successive outcomes of `_run_ffmpeg_capture`. -/

inductive FfmpegOutcome where
  | ok
  | depMissing
  | failed (msg : List Char)
deriving DecidableEq

inductive CamError where
  | dependencyMissing (msg : List Char)
  | streamDiscovery (msg : List Char)
  | frameCapture (msg : List Char)
deriving DecidableEq

/-- `str(exc)` for the camera exceptions: the carried message. -/
def CamError.message : CamError → List Char
  | .dependencyMissing m => m
  | .streamDiscovery m => m
  | .frameCapture m => m

structure CamEnv where
  ffmpegPresent : Bool
  discoveryOutcomes : List (Except (List Char) (List Char))
  ffmpegOutcomes : List FfmpegOutcome
  probeResult : Option ℤ × Option ℤ

def DEFAULT_STREAM_FETCH_ATTEMPTS : ℕ := 2

def DEFAULT_CAPTURE_ATTEMPTS : ℕ := 2

def DEP_MISSING_MSG : List Char := "Required binary not found in PATH: ffmpeg".toList

def DISCOVERY_FAIL_MSG : List Char :=
  "Unable to discover stream URL from auth_token response.".toList

def CAPTURE_FAIL_MSG : List Char := "Failed to capture frame from live stream.".toList

def LAST_ERROR_SEP : List Char := " Last error: ".toList

/-- Oracle default when the environment lists fewer outcomes than the loops
request (corresponds to a request that fails). -/
def DEFAULT_NETWORK_ERROR : List Char := "auth_token request failed".toList

/-- The `for _ in range(DEFAULT_STREAM_FETCH_ATTEMPTS)` loop of
`get_stream_url`: consumes one discovery outcome per iteration, returning the
first successful URL or the last error's message; the `ℕ` tracks the index of
the next unconsumed discovery outcome (= attempts performed so far). -/
def get_stream_url_loop (env : CamEnv) :
    ℕ → ℕ → Option (List Char) → Except (Option (List Char)) (List Char) × ℕ
  | idx, 0, last_error => (Except.error last_error, idx)
  | idx, fuel + 1, last_error =>
    match env.discoveryOutcomes.getD idx (Except.error DEFAULT_NETWORK_ERROR) with
    | Except.ok url => (Except.ok url, idx + 1)
    | Except.error e => get_stream_url_loop env (idx + 1) fuel (some e)

/-- `get_stream_url`: retries the discovery round up to
`DEFAULT_STREAM_FETCH_ATTEMPTS` times, then raises `StreamDiscoveryError`
with the redacted last error appended to the summary message. -/
def get_stream_url (env : CamEnv) (idx : ℕ) : Except CamError (List Char) × ℕ :=
  match get_stream_url_loop env idx DEFAULT_STREAM_FETCH_ATTEMPTS none with
  | (Except.ok url, idx') => (Except.ok url, idx')
  | (Except.error last_error, idx') =>
    (Except.error (CamError.streamDiscovery
      (match last_error with
       | none => DISCOVERY_FAIL_MSG
       | some e => DISCOVERY_FAIL_MSG ++ LAST_ERROR_SEP ++ redactTokens e)), idx')

/-- `CaptureResult` restricted to the fields the ingestion flow consumes
(the probed pixel dimensions); path, host and timestamp metadata are
I/O-environment values with no bearing on the claims. -/
structure CaptureResultR where
  width : Option ℤ
  height : Option ℤ
deriving DecidableEq

/-- The `for _ in range(DEFAULT_CAPTURE_ATTEMPTS)` loop of
`capture_frame_to_file`: each attempt runs discovery then one ffmpeg
invocation. `StreamDiscoveryError`/`FrameCaptureError` are caught and
retried; `DependencyMissingError` from the subprocess propagates at once.
State: next discovery-outcome index, next ffmpeg-outcome index. -/
def capture_loop (env : CamEnv) :
    ℕ → ℕ → ℕ → Option (List Char) → Except CamError CaptureResultR × ℕ × ℕ
  | dIdx, fIdx, 0, last_error =>
    (Except.error (CamError.frameCapture
      (match last_error with
       | none => CAPTURE_FAIL_MSG
       | some e => CAPTURE_FAIL_MSG ++ LAST_ERROR_SEP ++ redactTokens e)), dIdx, fIdx)
  | dIdx, fIdx, fuel + 1, last_error =>
    match get_stream_url env dIdx with
    | (Except.error e, dIdx') =>
      capture_loop env dIdx' fIdx fuel (some e.message)
    | (Except.ok _url, dIdx') =>
      match env.ffmpegOutcomes.getD fIdx (FfmpegOutcome.failed DEFAULT_NETWORK_ERROR) with
      | FfmpegOutcome.depMissing =>
        (Except.error (CamError.dependencyMissing DEP_MISSING_MSG), dIdx', fIdx + 1)
      | FfmpegOutcome.failed m =>
        capture_loop env dIdx' (fIdx + 1) fuel (some m)
      | FfmpegOutcome.ok =>
        (Except.ok { width := env.probeResult.1, height := env.probeResult.2 },
         dIdx', fIdx + 1)

/-- `capture_frame_to_file`: checks `shutil.which(ffmpeg_bin)` before doing
anything else and raises `DependencyMissingError` when the binary is absent;
otherwise runs the capture attempt loop. Returns the raised error or capture
result together with `(discovery attempts consumed, ffmpeg runs consumed)`. -/
def capture_frame_to_file (env : CamEnv) : Except CamError CaptureResultR × ℕ × ℕ :=
  if env.ffmpegPresent then capture_loop env 0 0 DEFAULT_CAPTURE_ATTEMPTS none
  else (Except.error (CamError.dependencyMissing DEP_MISSING_MSG), 0, 0)

/-! ## `db/models.py` + `service/ingest.py` + `service/retention.py`

`Capture` rows; `id` and `created_at` are server-assigned columns that
neither ingestion nor retention writes, so they are not part of the embedded
row value. Timestamps are epoch integers, binary payloads byte lists. -/

structure Capture where
  captured_at : ℤ
  camera_id : ℤ
  people_count : Option ℤ
  confidence_threshold : ℚ
  model_name : String
  image_width : Option ℤ
  image_height : Option ℤ
  image_bytes : Option (List ℕ)
  image_mime_type : Option String
  annotated_image_bytes : Option (List ℕ)
  annotated_image_mime_type : Option String
  status : String
  error : Option (List Char)
deriving DecidableEq

structure AppSettings where
  camera_id : ℤ
  yolo_model : String
  yolo_conf : ℚ
deriving DecidableEq

/-- Ingestion environment: the camera oracle plus the outcomes of the two
remaining effectful steps of the happy path — `model.predict` (the black-box
detection) and `annotate_image_png` (PIL rendering), either of which may
raise — and the bytes of the captured temp JPEG file. -/
structure IngestEnv where
  cam : CamEnv
  predictOutcome : Except (List Char) (List YoloResult)
  annotateOutcome : Except (List Char) (List ℕ)
  rawJpegBytes : List ℕ

/-- The `except Exception` arm of `ingest_capture`: the persisted error row. -/
def ingest_error_row (settings : AppSettings) (nowTs : ℤ) (msg : List Char) : Capture :=
  { captured_at := nowTs
    camera_id := settings.camera_id
    people_count := none
    confidence_threshold := settings.yolo_conf
    model_name := settings.yolo_model
    image_width := none
    image_height := none
    image_bytes := none
    image_mime_type := none
    annotated_image_bytes := none
    annotated_image_mime_type := none
    status := "error"
    error := some msg }

/-- `ingest_capture`: capture one frame, run inference, persist one row.
Any exception raised by capture, prediction or annotation produces the
`status="error"` row with `str(exc)` as message; otherwise the `status="ok"`
row is built, with the `None` dimensions from `count_people_in_image`
backfilled from the capture result. -/
def ingest_capture (env : IngestEnv) (settings : AppSettings) (nowTs : ℤ) : Capture :=
  match (capture_frame_to_file env.cam).1 with
  | Except.error exc => ingest_error_row settings nowTs exc.message
  | Except.ok capture_result =>
    match env.predictOutcome with
    | Except.error msg => ingest_error_row settings nowTs msg
    | Except.ok results =>
      let out := count_people_in_image results capture_result.width capture_result.height
      let image_width := if out.2.1 = none then capture_result.width else out.2.1
      let image_height := if out.2.2.1 = none then capture_result.height else out.2.2.1
      match env.annotateOutcome with
      | Except.error msg => ingest_error_row settings nowTs msg
      | Except.ok annotated_png_bytes =>
        { captured_at := nowTs
          camera_id := settings.camera_id
          people_count := some (out.1 : ℤ)
          confidence_threshold := settings.yolo_conf
          model_name := settings.yolo_model
          image_width := image_width
          image_height := image_height
          image_bytes := some env.rawJpegBytes
          image_mime_type := some "image/jpeg"
          annotated_image_bytes := some annotated_png_bytes
          annotated_image_mime_type := some "image/png"
          status := "ok"
          error := none }

/-- The `WHERE` clause of `prune_old_images`: older than the cutoff and
still holding at least one non-null binary payload. -/
def prune_eligible (cutoff : ℤ) (r : Capture) : Bool :=
  decide (r.captured_at < cutoff) &&
    (r.image_bytes.isSome || r.annotated_image_bytes.isSome)

/-- The `.values(...)` of `prune_old_images` applied to one matched row. -/
def prune_row (cutoff : ℤ) (r : Capture) : Capture :=
  if prune_eligible cutoff r then
    { r with
      image_bytes := none
      image_mime_type := none
      annotated_image_bytes := none
      annotated_image_mime_type := none }
  else r

/-- `prune_old_images`: the bulk `UPDATE` over the capture table, returning
the updated table and the matched-row count (`result.rowcount`). The cutoff
`now - timedelta(days=image_ttl_days)` is passed in directly. -/
def prune_old_images (rows : List Capture) (cutoff : ℤ) : List Capture × ℕ :=
  (rows.map (prune_row cutoff), (rows.filter (prune_eligible cutoff)).length)

/-! ## `web/app.py`: `_downsample_points` -/

/-- First-occurrence deduplication, as the Python `seen`-set loop. -/
def dedupFirst (seen : List ℤ) : List ℤ → List ℤ
  | [] => []
  | x :: xs => if x ∈ seen then dedupFirst seen xs else x :: dedupFirst (x :: seen) xs

/-- `_downsample_points`: uniform index sampling. Points are polymorphic
(the code samples JSON dicts). `points[-1]` is embedded via `getLast?`
(the branch is reachable only with a nonempty list) and `points[idx]` via
`getD` (the indices are provably in range). -/
def downsample_points {α : Type} [Inhabited α] (points : List α) (max_points : ℤ) :
    List α :=
  if ((points.length : ℤ)) ≤ max_points ∨ max_points ≤ 0 then points
  else if max_points = 1 then (points.getLast?).toList
  else
    (dedupFirst []
      ((List.range max_points.toNat).map fun (i : ℕ) =>
        pyRound ((((i : ℕ) : ℚ) * ((((points.length : ℤ)) : ℚ) - 1)) /
          ((max_points : ℚ) - 1)))).map
      fun idx => points.getD idx.toNat default

/-! ## Lemmas and claim theorems -/

lemma occ_cons_split {l l₂ : List Char} {a : Char} (h : l <:+: a :: l₂) :
    l <+: a :: l₂ ∨ l <:+: l₂ := by
  obtain ⟨s, t, hst⟩ := h
  match s with
  | [] => exact Or.inl ⟨t, by simpa using hst⟩
  | b :: s' =>
    rw [List.cons_append, List.cons_append, List.cons.injEq] at hst
    exact Or.inr ⟨s', t, hst.2⟩

lemma occ_cons_ext {l l₂ : List Char} (a : Char) (h : l <:+: l₂) : l <:+: a :: l₂ := by
  obtain ⟨s, t, hst⟩ := h
  exact ⟨a :: s, t, by rw [List.cons_append, List.cons_append, hst]⟩

lemma startsBadToken_iff {l : List Char} :
    startsBadToken l = true ↔
      ∃ c rest, l = 't' :: 'o' :: 'k' :: 'e' :: 'n' :: '=' :: c :: rest ∧
        isValueChar c = true := by
  constructor
  · intro h
    unfold startsBadToken at h
    split at h
    · exact ⟨_, _, rfl, h⟩
    · simp at h
  · rintro ⟨c, rest, rfl, hc⟩
    simpa [startsBadToken] using hc

lemma takeWhile_empty_head {r : List Char} (h : (r.takeWhile isValueChar).isEmpty = true)
    {c : Char} {r' : List Char} (he : r = c :: r') : isValueChar c = false := by
  subst he
  by_cases hc : isValueChar c
  · simp [List.takeWhile_cons, hc] at h
  · simpa using hc

lemma takeWhile_ne_empty_head {r : List Char}
    (h : ¬(r.takeWhile isValueChar).isEmpty = true) :
    ∃ c r', r = c :: r' ∧ isValueChar c = true := by
  match r with
  | [] => simp at h
  | c :: r' =>
    by_cases hc : isValueChar c
    · exact ⟨c, r', rfl, hc⟩
    · simp [List.takeWhile_cons, hc] at h

/-- If the redacted output starts with `pat ++ [v]` for a token-free pattern
`pat` and value character `v`, the input already started with `pat` followed
by some value character: replacements start with `t` and emitted characters
are copied, so such a head cannot be manufactured by the scan. -/
lemma redact_head_reflect (l : List Char) :
    ∀ (pat : List Char) (c : Char), (∀ p ∈ pat, p ≠ 't') → isValueChar c = true →
      (pat ++ [c]) <+: redactTokens l →
      ∃ c', isValueChar c' = true ∧ (pat ++ [c']) <+: l := by
  induction l using redactTokens.induct with
  | case1 r hv ih =>
    intro pat c hpat hc hpre
    rw [redactTokens, if_pos hv] at hpre
    match pat with
    | [] =>
      simp only [List.nil_append, List.cons_prefix_cons] at hpre
      exact ⟨'t', by decide, by simp [hpre.1]⟩
    | p :: ps =>
      rw [List.cons_append, List.cons_prefix_cons] at hpre
      exact absurd hpre.1 (hpat p (by simp))
  | case2 r hv ih =>
    intro pat c hpat hc hpre
    rw [redactTokens, if_neg hv] at hpre
    match pat with
    | [] =>
      simp only [List.nil_append, REDACTED_REPLACEMENT, List.cons_append,
        List.cons_prefix_cons] at hpre
      exact ⟨'t', by decide, by simp [hpre.1]⟩
    | p :: ps =>
      rw [List.cons_append, REDACTED_REPLACEMENT] at hpre
      simp only [List.cons_append, List.cons_prefix_cons] at hpre
      exact absurd hpre.1 (hpat p (by simp))
  | case3 c0 rest hshape ih =>
    intro pat c hpat hc hpre
    have hred : redactTokens (c0 :: rest) = c0 :: redactTokens rest := by
      rw [redactTokens]
      exact hshape
    rw [hred] at hpre
    match pat with
    | [] =>
      simp only [List.nil_append, List.cons_prefix_cons] at hpre
      exact ⟨c, hc, by simp [hpre.1]⟩
    | p :: ps =>
      rw [List.cons_append, List.cons_prefix_cons] at hpre
      obtain ⟨c', hc', hp⟩ := ih ps c (fun q hq => hpat q (by simp [hq])) hc hpre.2
      exact ⟨c', hc', by simp [List.cons_prefix_cons, hpre.1, hp]⟩
  | case4 =>
    intro pat c hpat hc hpre
    rw [redactTokens] at hpre
    simp at hpre

lemma hasUnredacted_append_repl (X : List Char) :
    hasUnredactedToken (REDACTED_REPLACEMENT ++ X) = hasUnredactedToken X := by
  simp only [REDACTED_REPLACEMENT, List.cons_append, List.nil_append]
  rfl

lemma hasUnredactedToken_cons (c : Char) (l : List Char) :
    hasUnredactedToken (c :: l) = (startsBadToken (c :: l) || hasUnredactedToken l) := rfl

/-- After redaction no position of the output matches `TOKEN_PATTERN` any
more: redaction is complete. -/
lemma hasUnredacted_redact (l : List Char) :
    hasUnredactedToken (redactTokens l) = false := by
  induction l using redactTokens.induct with
  | case1 r hv ih =>
    rw [redactTokens, if_pos hv]
    rw [hasUnredactedToken_cons, ih, Bool.or_false]
    by_cases hb : startsBadToken ('t' :: redactTokens ('o' :: 'k' :: 'e' :: 'n' :: '=' :: r))
    · obtain ⟨c, tl, heq, hc⟩ := startsBadToken_iff.mp hb
      have hpre : (['o', 'k', 'e', 'n', '='] ++ [c]) <+:
          redactTokens ('o' :: 'k' :: 'e' :: 'n' :: '=' :: r) := by
        rw [List.cons.injEq] at heq
        exact ⟨tl, by simpa using heq.2.symm⟩
      obtain ⟨c', hc', hp⟩ := redact_head_reflect _ _ _ (by decide) hc hpre
      simp only [List.cons_append, List.nil_append, List.cons_prefix_cons, true_and] at hp
      obtain ⟨r', hr'⟩ := hp
      have := takeWhile_empty_head hv (show r = c' :: r' from hr'.symm)
      rw [hc'] at this
      exact absurd this (by simp)
    · simpa using hb
  | case2 r hv ih =>
    rw [redactTokens, if_neg hv, hasUnredacted_append_repl]
    exact ih
  | case3 c0 rest hshape ih =>
    have hred : redactTokens (c0 :: rest) = c0 :: redactTokens rest := by
      rw [redactTokens]
      exact hshape
    rw [hred, hasUnredactedToken_cons, ih, Bool.or_false]
    by_cases hb : startsBadToken (c0 :: redactTokens rest)
    · obtain ⟨c, tl, heq, hc⟩ := startsBadToken_iff.mp hb
      rw [List.cons.injEq] at heq
      have hpre : (['o', 'k', 'e', 'n', '='] ++ [c]) <+: redactTokens rest :=
        ⟨tl, by simpa using heq.2.symm⟩
      obtain ⟨c', hc', hp⟩ := redact_head_reflect _ _ _ (by decide) hc hpre
      simp only [List.cons_append, List.nil_append, List.cons_prefix_cons, true_and] at hp
      obtain ⟨r', hr'⟩ := hp
      exact ((hshape (c' :: r') heq.1 (by simpa using hr'.symm))).elim
    · simpa using hb
  | case4 =>
    rw [redactTokens]
    rfl

/-- Strings with no `TOKEN_PATTERN` match are fixed points of the scan. -/
lemma redact_fixpoint (l : List Char) (h : hasUnredactedToken l = false) :
    redactTokens l = l := by
  induction l using redactTokens.induct with
  | case1 r hv ih =>
    rw [hasUnredactedToken_cons] at h
    rw [redactTokens, if_pos hv, ih (Bool.or_eq_false_iff.mp h).2]
  | case2 r hv ih =>
    obtain ⟨c, r', rfl, hc⟩ := takeWhile_ne_empty_head hv
    rw [hasUnredactedToken_cons] at h
    have hbad : startsBadToken ('t' :: 'o' :: 'k' :: 'e' :: 'n' :: '=' :: c :: r') = true := by
      simpa [startsBadToken] using hc
    rw [hbad] at h
    simp at h
  | case3 c0 rest hshape ih =>
    have hred : redactTokens (c0 :: rest) = c0 :: redactTokens rest := by
      rw [redactTokens]
      exact hshape
    rw [hasUnredactedToken_cons] at h
    rw [hred, ih (Bool.or_eq_false_iff.mp h).2]
  | case4 => rw [redactTokens]

/-- Whenever the input holds a `TOKEN_PATTERN` match, the output holds the
replacement text `token=<redacted>`. -/
lemma redact_contains_replacement (l : List Char) :
    ∀ c : Char, isValueChar c = true → (TOKEN_EQ ++ [c]) <:+: l →
      REDACTED_REPLACEMENT <:+: redactTokens l := by
  induction l using redactTokens.induct with
  | case1 r hv ih =>
    intro c hc hocc
    rw [redactTokens, if_pos hv]
    rcases occ_cons_split hocc with hpre | htail
    · simp only [TOKEN_EQ, List.cons_append, List.nil_append, List.cons_prefix_cons,
        true_and] at hpre
      obtain ⟨r', hr'⟩ := hpre
      have := takeWhile_empty_head hv (show r = c :: r' from hr'.symm)
      rw [hc] at this
      exact absurd this (by simp)
    · exact occ_cons_ext 't' (ih c hc htail)
  | case2 r hv ih =>
    intro c hc hocc
    rw [redactTokens, if_neg hv]
    exact ⟨[], redactTokens (r.dropWhile isValueChar), by simp⟩
  | case3 c0 rest hshape ih =>
    intro c hc hocc
    have hred : redactTokens (c0 :: rest) = c0 :: redactTokens rest := by
      rw [redactTokens]
      exact hshape
    rw [hred]
    rcases occ_cons_split hocc with hpre | htail
    · simp only [TOKEN_EQ, List.cons_append, List.nil_append, List.cons_prefix_cons] at hpre
      obtain ⟨hc0, r', hr'⟩ := hpre
      exact ((hshape (c :: r') hc0.symm (by simpa using hr'.symm))).elim
    · exact occ_cons_ext c0 (ih c hc htail)
  | case4 =>
    intro c hc hocc
    rw [redactTokens]
    simp [TOKEN_EQ] at hocc

/-- C2: the claim as frozen is false — `token=<value>` redaction does not
guarantee the value's characters are absent from the output. Input
`token=r&x` holds the token value `r` (delimited by `&`); the output is
`token=<redacted>&x`, which still contains `r` (inside `<redacted>`). -/
theorem redact_token_value_counterexample :
    (TOKEN_EQ ++ ['r']) <:+: "token=r&x".toList ∧ isValueChar 'r' = true ∧
      redactTokens "token=r&x".toList = "token=<redacted>&x".toList ∧
      ['r'] <:+: redactTokens "token=r&x".toList := by
  have h : redactTokens "token=r&x".toList = "token=<redacted>&x".toList := by
    simp [redactTokens, isValueChar, REDACTED_REPLACEMENT, String.toList]
  refine ⟨by decide, by decide, h, ?_⟩
  rw [h]
  decide

/-- C2 (amended): for every input containing `token=` followed by a value
character, the redacted output contains `token=<redacted>`, and the output
contains no `token=<value>` substring at all (no token value survives in a
`token=` position); the raw value characters may still occur elsewhere. -/
theorem redact_token_confidentiality (s : List Char) (c : Char)
    (hc : isValueChar c = true) (hocc : (TOKEN_EQ ++ [c]) <:+: s) :
    REDACTED_REPLACEMENT <:+: redactTokens s ∧
      hasUnredactedToken (redactTokens s) = false :=
  ⟨redact_contains_replacement s c hc hocc, hasUnredacted_redact s⟩

theorem redact_token_confidentiality_witness :
    REDACTED_REPLACEMENT <:+: redactTokens "http err token=abc12&id=7".toList ∧
      hasUnredactedToken (redactTokens "http err token=abc12&id=7".toList) = false :=
  redact_token_confidentiality "http err token=abc12&id=7".toList 'a'
    (by decide) (by decide)

/-- C10: `_redact_tokens` is idempotent — its output contains no further
redactable `token=<value>` substring, so a second pass is the identity. -/
theorem redact_tokens_idempotent (s : List Char) :
    redactTokens (redactTokens s) = redactTokens s :=
  redact_fixpoint _ (hasUnredacted_redact s)

lemma pyRound_intCast (n : ℤ) : pyRound ((n : ℚ)) = n := by
  simp [pyRound, Int.fract_intCast, Int.floor_intCast]

/-- C8: scaling a polygon to the base resolution `1920 × 1080` is the
identity: both scale factors are exactly `1` and rounding an integer
returns it. -/
theorem scale_polygon_base_identity (polygon : List (ℤ × ℤ)) :
    scale_polygon polygon ROI_BASE_WIDTH ROI_BASE_HEIGHT = polygon := by
  have hw : ((ROI_BASE_WIDTH : ℤ) : ℚ) / ((ROI_BASE_WIDTH : ℤ) : ℚ) = 1 := by
    norm_num [ROI_BASE_WIDTH]
  have hh : ((ROI_BASE_HEIGHT : ℤ) : ℚ) / ((ROI_BASE_HEIGHT : ℤ) : ℚ) = 1 := by
    norm_num [ROI_BASE_HEIGHT]
  simp [scale_polygon, hw, hh, pyRound_intCast]

/-- C3: the claim's fallback clause is false on the code — with a model
result that reports no frame shape, `count_people_in_image` returns `None`
dimensions, not the caller-supplied `640 × 480`. -/
theorem count_people_dims_counterexample :
    (count_people_in_image [{ orig_shape := none, boxes := none }]
        (some 640) (some 480)).2.1 = none ∧
      (count_people_in_image [{ orig_shape := none, boxes := none }]
        (some 640) (some 480)).2.1 ≠ some 640 := by
  constructor
  · rfl
  · decide

/-- C3 (amended): once the model returns any result, the dimensions that
`count_people_in_image` hands back come from that result's reported frame
shape alone — `(width, height)` from `orig_shape = (h, w)` when reported,
and `None` when not. The caller-supplied dimensions never reach the output
(the fallback to them is performed by the caller, `ingest_capture`). -/
theorem count_people_dims_from_model (r : YoloResult) (rest : List YoloResult)
    (image_width image_height : Option ℤ) :
    (count_people_in_image (r :: rest) image_width image_height).2.1 =
        r.orig_shape.map Prod.snd ∧
      (count_people_in_image (r :: rest) image_width image_height).2.2.1 =
        r.orig_shape.map Prod.fst := by
  unfold count_people_in_image
  cases hb : r.boxes with
  | none => simp [hb]
  | some b =>
    cases hc : b.cls with
    | none => simp [hb, hc]
    | some cv =>
      cases hx : b.xyxy with
      | none => simp [hb, hc, hx]
      | some xv => simp [hb, hc, hx]

/-- C9: the returned count always equals the length of the returned box
list, and every returned box is a rounded person-class (`int(cls) = 0`)
detection of the model. -/
theorem count_people_count_matches_boxes (results : List YoloResult)
    (image_width image_height : Option ℤ) :
    (count_people_in_image results image_width image_height).1 =
        (count_people_in_image results image_width image_height).2.2.2.length ∧
      ∀ bx ∈ (count_people_in_image results image_width image_height).2.2.2,
        ∃ d ∈ model_detections results, pyTrunc d.1 = 0 ∧ bx = roundBox d.2 := by
  cases results with
  | nil => simp [count_people_in_image, model_detections]
  | cons r rest =>
    unfold count_people_in_image model_detections
    cases hb : r.boxes with
    | none => simp [hb]
    | some b =>
      cases hc : b.cls with
      | none => simp [hb, hc]
      | some cv =>
        cases hx : b.xyxy with
        | none => simp [hb, hc, hx]
        | some xv =>
          simp only [hb, hc, hx]
          refine ⟨?_, ?_⟩
          · cases get_scaled_roi_polygon (r.orig_shape.map Prod.snd)
              (r.orig_shape.map Prod.fst) <;> trivial
          · intro bx hbx
            have hall : bx ∈ (cv.zip xv).filterMap fun d =>
                if pyTrunc d.1 ≠ 0 then none else some (roundBox d.2) := by
              revert hbx
              cases get_scaled_roi_polygon (r.orig_shape.map Prod.snd)
                  (r.orig_shape.map Prod.fst) with
              | none => exact fun hbx => hbx
              | some poly => exact fun hbx => (List.mem_filter.mp hbx).1
            obtain ⟨d, hd, hfd⟩ := List.mem_filterMap.mp hall
            by_cases h0 : pyTrunc d.1 ≠ 0
            · rw [if_pos h0] at hfd
              exact absurd hfd (by simp)
            · rw [if_neg h0] at hfd
              exact ⟨d, hd, by simpa using h0, (Option.some.injEq _ _ ▸ hfd).symm⟩

/-- C7: when `shutil.which(ffmpeg)` fails, `capture_frame_to_file` raises
`DependencyMissingError` at once — the attempt loop never starts, so zero
discovery attempts and zero ffmpeg runs are consumed. -/
theorem capture_missing_ffmpeg_immediate (env : CamEnv)
    (h : env.ffmpegPresent = false) :
    capture_frame_to_file env =
      (Except.error (CamError.dependencyMissing DEP_MISSING_MSG), 0, 0) := by
  simp [capture_frame_to_file, h]

theorem capture_missing_ffmpeg_immediate_witness :
    capture_frame_to_file ⟨false, [], [], (none, none)⟩ =
      (Except.error (CamError.dependencyMissing DEP_MISSING_MSG), 0, 0) :=
  capture_missing_ffmpeg_immediate ⟨false, [], [], (none, none)⟩ rfl

/-- C1: every row persisted by `ingest_capture` satisfies exactly one of the
two shapes — `status = "ok"` with non-null `people_count`, or
`status = "error"` with null `people_count` and all four image fields null —
whatever the capture/detection/annotation outcomes are. -/
theorem ingest_capture_record_invariant (env : IngestEnv) (settings : AppSettings)
    (nowTs : ℤ) :
    Xor'
      ((ingest_capture env settings nowTs).status = "ok" ∧
        (ingest_capture env settings nowTs).people_count ≠ none)
      ((ingest_capture env settings nowTs).status = "error" ∧
        (ingest_capture env settings nowTs).people_count = none ∧
        (ingest_capture env settings nowTs).image_bytes = none ∧
        (ingest_capture env settings nowTs).image_mime_type = none ∧
        (ingest_capture env settings nowTs).annotated_image_bytes = none ∧
        (ingest_capture env settings nowTs).annotated_image_mime_type = none) := by
  unfold ingest_capture
  cases (capture_frame_to_file env.cam).1 with
  | error e => exact Or.inr ⟨⟨rfl, rfl, rfl, rfl, rfl, rfl⟩, by simp [ingest_error_row]⟩
  | ok capture_result =>
    cases env.predictOutcome with
    | error msg => exact Or.inr ⟨⟨rfl, rfl, rfl, rfl, rfl, rfl⟩, by simp [ingest_error_row]⟩
    | ok results =>
      cases env.annotateOutcome with
      | error msg =>
        exact Or.inr ⟨⟨rfl, rfl, rfl, rfl, rfl, rfl⟩, by simp [ingest_error_row]⟩
      | ok annotated_png_bytes => exact Or.inl ⟨⟨rfl, by simp⟩, by simp⟩

lemma prune_row_not_eligible (cutoff : ℤ) (r : Capture) :
    prune_eligible cutoff (prune_row cutoff r) = false := by
  unfold prune_row
  by_cases he : prune_eligible cutoff r
  · rw [if_pos he]
    simp [prune_eligible]
  · rw [if_neg he]
    simpa using he

lemma prune_row_fix (cutoff : ℤ) (r : Capture)
    (h : prune_eligible cutoff r = false) : prune_row cutoff r = r := by
  simp [prune_row, h]

/-- C5: the prune update touches only the four binary-image fields, and only
on rows matching the `WHERE` clause (older than the cutoff with at least one
non-null payload); every other field of every row — and every field of every
non-matching row — is unchanged. Stated row-by-row over the whole table via
`Forall₂`. -/
theorem prune_only_nulls_images (rows : List Capture) (cutoff : ℤ) :
    List.Forall₂ (fun r r' =>
      r'.captured_at = r.captured_at ∧ r'.camera_id = r.camera_id ∧
      r'.people_count = r.people_count ∧
      r'.confidence_threshold = r.confidence_threshold ∧
      r'.model_name = r.model_name ∧ r'.image_width = r.image_width ∧
      r'.image_height = r.image_height ∧ r'.status = r.status ∧ r'.error = r.error ∧
      (prune_eligible cutoff r = true →
        r'.image_bytes = none ∧ r'.image_mime_type = none ∧
        r'.annotated_image_bytes = none ∧ r'.annotated_image_mime_type = none) ∧
      (prune_eligible cutoff r = false → r' = r))
      rows (prune_old_images rows cutoff).1 := by
  induction rows with
  | nil => exact List.Forall₂.nil
  | cons r rs ih =>
    refine List.Forall₂.cons ?_ ih
    unfold prune_row
    by_cases he : prune_eligible cutoff r
    · rw [if_pos he]
      exact ⟨rfl, rfl, rfl, rfl, rfl, rfl, rfl, rfl, rfl,
        fun _ => ⟨rfl, rfl, rfl, rfl⟩, fun hf => absurd he (by simp [hf])⟩
    · rw [if_neg he]
      exact ⟨rfl, rfl, rfl, rfl, rfl, rfl, rfl, rfl, rfl,
        fun ht => absurd ht (by simpa using he), fun _ => rfl⟩

/-- C6: pruning is idempotent — immediately re-running with the same cutoff
changes no row and reports zero affected rows, because every already-pruned
eligible row has both payloads null and no longer matches the `WHERE`
clause. -/
theorem prune_idempotent (rows : List Capture) (cutoff : ℤ) :
    prune_old_images (prune_old_images rows cutoff).1 cutoff =
      ((prune_old_images rows cutoff).1, 0) := by
  unfold prune_old_images
  refine Prod.ext ?_ ?_
  · show (rows.map (prune_row cutoff)).map (prune_row cutoff) = rows.map (prune_row cutoff)
    rw [List.map_map]
    refine List.map_congr_left fun r _ => ?_
    exact prune_row_fix cutoff (prune_row cutoff r) (prune_row_not_eligible cutoff r)
  · show ((rows.map (prune_row cutoff)).filter (prune_eligible cutoff)).length = 0
    rw [List.length_eq_zero, List.filter_eq_nil_iff]
    intro a ha
    obtain ⟨r, _, rfl⟩ := List.mem_map.mp ha
    simp [prune_row_not_eligible]

lemma pyRound_mono {q r : ℚ} (h : q ≤ r) : pyRound q ≤ pyRound r := by
  unfold pyRound
  by_cases hf : ⌊q⌋ = ⌊r⌋
  · have hcast : ((⌊q⌋ : ℤ) : ℚ) = ((⌊r⌋ : ℤ) : ℚ) := by exact_mod_cast hf
    have hfr : Int.fract q ≤ Int.fract r := by
      simp only [Int.fract]
      linarith
    split_ifs <;> first | omega | (exfalso; linarith)
  · have hlt : ⌊q⌋ < ⌊r⌋ := lt_of_le_of_ne (Int.floor_le_floor h) hf
    split_ifs <;> omega

lemma pyRound_le_int {q : ℚ} {n : ℤ} (h : q ≤ (n : ℚ)) : pyRound q ≤ n :=
  pyRound_intCast n ▸ pyRound_mono h

lemma int_le_pyRound {q : ℚ} {n : ℤ} (h : (n : ℚ) ≤ q) : n ≤ pyRound q :=
  pyRound_intCast n ▸ pyRound_mono h

lemma mem_dedupFirst {a : ℤ} : ∀ {seen l : List ℤ},
    a ∈ dedupFirst seen l ↔ a ∈ l ∧ a ∉ seen := by
  intro seen l
  induction l generalizing seen with
  | nil => simp [dedupFirst]
  | cons x xs ih =>
    unfold dedupFirst
    by_cases hx : x ∈ seen
    · rw [if_pos hx, ih]
      constructor
      · rintro ⟨h1, h2⟩
        exact ⟨List.mem_cons_of_mem _ h1, h2⟩
      · rintro ⟨h1, h2⟩
        rcases List.mem_cons.mp h1 with rfl | h1
        · exact absurd hx h2
        · exact ⟨h1, h2⟩
    · rw [if_neg hx]
      constructor
      · intro h
        rcases List.mem_cons.mp h with rfl | h
        · exact ⟨List.mem_cons_self _ _, hx⟩
        · obtain ⟨h1, h2⟩ := ih.mp h
          exact ⟨List.mem_cons_of_mem _ h1, fun hs => h2 (List.mem_cons_of_mem _ hs)⟩
      · rintro ⟨h1, h2⟩
        rcases List.mem_cons.mp h1 with rfl | h1
        · exact List.mem_cons_self _ _
        · by_cases ha : a = x
          · subst ha
            exact List.mem_cons_self _ _
          · exact List.mem_cons_of_mem _ (ih.mpr ⟨h1, by simp [ha, h2]⟩)

lemma dedupFirst_pairwise : ∀ {seen l : List ℤ}, l.Pairwise (· ≤ ·) →
    (dedupFirst seen l).Pairwise (· < ·) := by
  intro seen l h
  induction l generalizing seen with
  | nil => exact List.Pairwise.nil
  | cons x xs ih =>
    rw [List.pairwise_cons] at h
    unfold dedupFirst
    by_cases hx : x ∈ seen
    · rw [if_pos hx]
      exact ih h.2
    · rw [if_neg hx]
      refine List.Pairwise.cons ?_ (ih h.2)
      intro y hy
      obtain ⟨hy1, hy2⟩ := mem_dedupFirst.mp hy
      exact lt_of_le_of_ne (h.1 y hy1) (by simp at hy2; exact fun he => hy2.1 he.symm)

lemma pairwise_lt_getLast? : ∀ (l : List ℤ) (x : ℤ), l.Pairwise (· < ·) → x ∈ l →
    (∀ y ∈ l, y ≤ x) → l.getLast? = some x := by
  intro l
  induction l with
  | nil => intro x _ hx _; simp at hx
  | cons a t ih =>
    intro x hp hx hb
    match t with
    | [] =>
      simp only [List.mem_singleton] at hx
      simp [hx]
    | b :: t' =>
      rw [List.getLast?_cons_cons]
      rw [List.pairwise_cons] at hp
      rcases List.mem_cons.mp hx with rfl | hx'
      · have hab : x < b := hp.1 b (List.mem_cons_self _ _)
        have : b ≤ x := hb b (List.mem_cons_of_mem _ (List.mem_cons_self _ _))
        omega
      · exact ih x hp.2 hx' fun y hy => hb y (List.mem_cons_of_mem _ hy)

lemma map_getD_sublist {α : Type} [Inhabited α] :
    ∀ (points : List α) (idxs : List ℕ), idxs.Pairwise (· < ·) →
      (∀ i ∈ idxs, i < points.length) →
      (idxs.map fun i => points.getD i default).Sublist points := by
  intro points
  induction points with
  | nil =>
    intro idxs _ hb
    match idxs with
    | [] => exact List.Sublist.refl []
    | i :: rest => exact absurd (hb i (List.mem_cons_self _ _)) (by simp)
  | cons p ps ih =>
    intro idxs hp hb
    match idxs with
    | [] => exact List.nil_sublist _
    | 0 :: rest =>
      rw [List.pairwise_cons] at hp
      have hshift : (rest.map fun j => (p :: ps).getD j default) =
          (rest.map fun j => j - 1).map (fun m => ps.getD m default) := by
        rw [List.map_map]
        refine List.map_congr_left fun j hj => ?_
        have h1 : 1 ≤ j := hp.1 j hj
        simp only [Function.comp]
        obtain ⟨m, rfl⟩ : ∃ m, j = m + 1 := ⟨j - 1, by omega⟩
        rw [List.getD_cons_succ]
        norm_num
      rw [List.map_cons, List.getD_cons_zero, hshift]
      refine List.Sublist.cons₂ p (ih _ ?_ ?_)
      · rw [List.pairwise_map]
        refine hp.2.imp_of_mem fun ha hb' hlt => ?_
        have h1 := hp.1 _ ha
        omega
      · intro m hm
        obtain ⟨j, hj, rfl⟩ := List.mem_map.mp hm
        have h1 := hp.1 j hj
        have h2 := hb j (List.mem_cons_of_mem _ hj)
        rw [List.length_cons] at h2
        omega
    | (j + 1) :: rest =>
      have hge : ∀ k ∈ (j + 1) :: rest, 1 ≤ k := by
        intro k hk
        rcases List.mem_cons.mp hk with rfl | hk
        · omega
        · have := (List.pairwise_cons.mp hp).1 k hk
          omega
      have hshift : (((j + 1) :: rest).map fun k => (p :: ps).getD k default) =
          (((j + 1) :: rest).map fun k => k - 1).map (fun m => ps.getD m default) := by
        rw [List.map_map]
        refine List.map_congr_left fun k hk => ?_
        have h1 := hge k hk
        simp only [Function.comp]
        obtain ⟨m, rfl⟩ : ∃ m, k = m + 1 := ⟨k - 1, by omega⟩
        rw [List.getD_cons_succ]
        norm_num
      rw [hshift]
      refine List.Sublist.cons p (ih _ ?_ ?_)
      · rw [List.pairwise_map]
        refine hp.imp_of_mem fun ha hb' hlt => ?_
        have h1 := hge _ ha
        omega
      · intro m hm
        obtain ⟨k, hk, rfl⟩ := List.mem_map.mp hm
        have h1 := hge k hk
        have h2 := hb k hk
        rw [List.length_cons] at h2
        omega


lemma dedupFirst_cons_nil (x : ℤ) (xs : List ℤ) :
    dedupFirst [] (x :: xs) = x :: dedupFirst [x] xs := by
  unfold dedupFirst
  rw [if_neg (List.not_mem_nil x)]
  cases xs <;> rfl

lemma downsample_points_eq_main {α : Type} [Inhabited α] (points : List α) (max_points : ℤ)
    (h1 : ¬(((points.length : ℤ)) ≤ max_points ∨ max_points ≤ 0)) (h2 : max_points ≠ 1) :
    downsample_points points max_points =
      (dedupFirst []
        ((List.range max_points.toNat).map fun (i : ℕ) =>
          pyRound ((((i : ℕ) : ℚ) * ((((points.length : ℤ)) : ℚ) - 1)) / ((max_points : ℚ) - 1)))).map
        fun idx => points.getD idx.toNat default := by
  unfold downsample_points
  rw [if_neg h1, if_neg h2]


/-- C4: the claim fails at target count M = 1 — `_downsample_points` then
returns only the last point, dropping the first: downsampling `[0, 1]` to one
point yields `[1]`, which does not include the first original point `0`. -/
theorem downsample_counterexample :
    downsample_points ([0, 1] : List ℤ) 1 = [1] ∧
      (0 : ℤ) ∈ ([0, 1] : List ℤ) ∧
      (0 : ℤ) ∉ downsample_points ([0, 1] : List ℤ) 1 := by
  decide

/-- C4 (amended): for every non-empty point sequence and target count M with
2 ≤ M ≤ N, the downsampled output is a subsequence of the input (chronological
order preserved) whose first element is the first original point and whose
last element is the last original point. For M = 1 the code instead returns
just the last point. -/
theorem downsample_keeps_first_last_order {α : Type} [Inhabited α]
    (points : List α) (max_points : ℤ)
    (h2 : 2 ≤ max_points) (hMN : max_points ≤ ((points.length : ℤ))) :
    (downsample_points points max_points).Sublist points ∧
      (downsample_points points max_points).head? = points.head? ∧
      (downsample_points points max_points).getLast? = points.getLast? := by
  by_cases hcase : ((points.length : ℤ)) ≤ max_points
  · unfold downsample_points
    rw [if_pos (Or.inl hcase)]
    exact ⟨List.Sublist.refl _, rfl, rfl⟩
  · have hN3 : 3 ≤ points.length := by
      push_neg at hcase
      omega
    rw [downsample_points_eq_main points max_points (by push_neg at hcase ⊢; omega)
      (by omega)]
    set N := points.length with hNdef
    set f : ℕ → ℤ := fun i =>
      pyRound (((i : ℚ) * ((((N : ℤ)) : ℚ) - 1)) / ((max_points : ℚ) - 1)) with hfdef
    set g : ℤ → α := fun idx => points.getD idx.toNat default with hgdef
    set Mn := max_points.toNat with hMndef
    have hMn2 : 2 ≤ Mn := by omega
    have hMnint : ((Mn : ℤ)) = max_points := Int.toNat_of_nonneg (by omega)
    have hMQ : (0 : ℚ) < (max_points : ℚ) - 1 := by
      have : (1 : ℤ) < max_points := by omega
      have hcast : (1 : ℚ) < (max_points : ℚ) := by exact_mod_cast this
      linarith
    have hNQ : (0 : ℚ) ≤ (((N : ℤ)) : ℚ) - 1 := by
      have : (1 : ℤ) ≤ ((N : ℤ)) := by omega
      have hcast : (1 : ℚ) ≤ (((N : ℤ)) : ℚ) := by exact_mod_cast this
      linarith
    have hfmono : ∀ i j : ℕ, i ≤ j → f i ≤ f j := by
      intro i j hij
      refine pyRound_mono ?_
      rw [div_le_div_iff_of_pos_right hMQ]
      have hcij : ((i : ℚ)) ≤ ((j : ℚ)) := by exact_mod_cast hij
      exact mul_le_mul_of_nonneg_right hcij hNQ
    have hf0 : f 0 = 0 := by
      have : (((0 : ℕ) : ℚ) * ((((N : ℤ)) : ℚ) - 1)) / ((max_points : ℚ) - 1) = 0 := by
        norm_num
      rw [hfdef]
      simp only [this]
      rw [show (0 : ℚ) = (((0 : ℤ)) : ℚ) by norm_num, pyRound_intCast]
    have hflast : f (Mn - 1) = ((N : ℤ)) - 1 := by
      have hcastM : (((Mn - 1 : ℕ)) : ℚ) = (max_points : ℚ) - 1 := by
        have h1 : (((Mn - 1 : ℕ)) : ℤ) = max_points - 1 := by omega
        exact_mod_cast h1
      have hq : ((((Mn - 1 : ℕ)) : ℚ) * ((((N : ℤ)) : ℚ) - 1)) / ((max_points : ℚ) - 1) =
          (((N : ℤ)) : ℚ) - 1 := by
        rw [hcastM, mul_comm, mul_div_assoc, div_self (ne_of_gt hMQ), mul_one]
      rw [hfdef]
      simp only [hq]
      rw [show (((N : ℤ)) : ℚ) - 1 = ((((N : ℤ)) - 1 : ℤ) : ℚ) by push_cast; ring,
        pyRound_intCast]
    set raw : List ℤ := (List.range Mn).map f with hrawdef
    have hraw_sorted : raw.Pairwise (· ≤ ·) :=
      List.pairwise_map.mpr ((List.pairwise_lt_range Mn).imp
        fun hab => hfmono _ _ (le_of_lt hab))
    have hraw_bounds : ∀ y ∈ raw, 0 ≤ y ∧ y ≤ ((N : ℤ)) - 1 := by
      intro y hy
      obtain ⟨i, hi, rfl⟩ := List.mem_map.mp hy
      rw [List.mem_range] at hi
      constructor
      · rw [← hf0]
        exact hfmono 0 i (Nat.zero_le i)
      · rw [← hflast]
        exact hfmono i (Mn - 1) (by omega)
    set dedup : List ℤ := dedupFirst [] raw with hdedupdef
    have hdedup_mem : ∀ {y : ℤ}, y ∈ dedup ↔ y ∈ raw := by
      intro y
      rw [hdedupdef, mem_dedupFirst]
      simp
    have hdedup_pairwise : dedup.Pairwise (· < ·) := dedupFirst_pairwise hraw_sorted
    have hdedup_last : dedup.getLast? = some (((N : ℤ)) - 1) := by
      refine pairwise_lt_getLast? dedup _ hdedup_pairwise ?_ ?_
      · rw [hdedup_mem, hrawdef, ← hflast]
        exact List.mem_map_of_mem f (List.mem_range.mpr (by omega))
      · intro y hy
        exact (hraw_bounds y (hdedup_mem.mp hy)).2
    refine ⟨?_, ?_, ?_⟩
    · -- sublist
      have hcomp : dedup.map g = (dedup.map Int.toNat).map fun i => points.getD i default := by
        rw [List.map_map]
        rfl
      rw [hcomp]
      refine map_getD_sublist points (dedup.map Int.toNat) ?_ ?_
      · rw [List.pairwise_map]
        refine hdedup_pairwise.imp_of_mem fun ha hb hlt => ?_
        have h0a := (hraw_bounds _ (hdedup_mem.mp ha)).1
        omega
      · intro i hi
        obtain ⟨y, hy, rfl⟩ := List.mem_map.mp hi
        have hb := hraw_bounds y (hdedup_mem.mp hy)
        omega
    · -- head
      obtain ⟨k, hk⟩ : ∃ k, Mn = k + 1 := ⟨Mn - 1, by omega⟩
      have hraw_cons : raw = f 0 :: (List.map Nat.succ (List.range k)).map f := by
        rw [hrawdef, hk, List.range_succ_eq_map, List.map_cons]
      have hdedup_cons : dedup = f 0 ::
          dedupFirst [f 0] ((List.map Nat.succ (List.range k)).map f) := by
        rw [hdedupdef, hraw_cons, dedupFirst_cons_nil]
      rw [hdedup_cons, List.map_cons, hf0]
      have hghead : g 0 = points.getD 0 default := by
        rw [hgdef]
        rfl
      rw [List.head?_cons, hghead, List.head?_eq_getElem?,
        List.getD_eq_getElem?_getD, List.getElem?_eq_getElem (by omega)]
      rfl
    · -- last
      rw [List.getLast?_map, hdedup_last, Option.map_some']
      have hglast : g (((N : ℤ)) - 1) = points.getD (N - 1) default := by
        rw [hgdef]
        have htn : ((((N : ℤ)) - 1)).toNat = N - 1 := by omega
        simp only [htn]
      rw [hglast, List.getLast?_eq_getElem?,
        List.getD_eq_getElem?_getD, List.getElem?_eq_getElem (by omega)]
      rfl

theorem downsample_keeps_first_last_order_witness :
    (downsample_points ([10, 20, 30, 40, 50] : List ℤ) 3).Sublist
        ([10, 20, 30, 40, 50] : List ℤ) ∧
      (downsample_points ([10, 20, 30, 40, 50] : List ℤ) 3).head? =
        ([10, 20, 30, 40, 50] : List ℤ).head? ∧
      (downsample_points ([10, 20, 30, 40, 50] : List ℤ) 3).getLast? =
        ([10, 20, 30, 40, 50] : List ℤ).getLast? :=
  downsample_keeps_first_last_order [10, 20, 30, 40, 50] 3 (by decide) (by decide)

end NarvaQueue
